import Mathlib

/-!
Verification development for the chill-json fuzzy JSON repair engine
(src/lib.rs).  The Rust source is shallowly embedded: each handler and
repair strategy becomes an executable Lean function on an explicit
`ParseState`; the driver loop becomes a fuel-indexed recursion whose fuel
is exactly the `max_repair_attempts` bound of the source.  Strings are
modelled as lists of Unicode scalar values (`List Char`), matching the
source's character-position cursor (`chars().nth(position)`).
Mutable `ParseState` methods become state-passing functions.
-/

namespace ChillJson

/-- Left and right curly brace characters (written via hex escapes). -/
def lbrace : Char := '\x7b'

def rbrace : Char := '\x7d'

/-- Embedding of `enum JsonContext` from src/lib.rs. -/
inductive JsonContext where
  | Root
  | Object
  | Array
  | DoubleQuoteProperty
  | SingleQuoteProperty
  | DoubleQuoteValue
  | SingleQuoteValue
  | Colon
deriving DecidableEq, Repr

namespace JsonContext

/-- `JsonContext::is_value`. -/
def isValue (c : JsonContext) : Bool :=
  c = DoubleQuoteValue || c = SingleQuoteValue

/-- `JsonContext::is_key`. -/
def isKey (c : JsonContext) : Bool :=
  c = DoubleQuoteProperty || c = SingleQuoteProperty

end JsonContext

/-- Embedding of `struct ParseState`.  `input` is the character sequence of
the (trimmed) input string, `output` the accumulating rewritten buffer.
The context stack is kept with its top at the head of the list (the Rust
`Vec` keeps the top at the end); the `Root` sentinel is therefore the last
element. -/
structure ParseState where
  input : List Char
  position : Nat
  stack : List JsonContext
  output : List Char
deriving DecidableEq, Repr

/-- Rust `str::trim`: drop Unicode whitespace from both ends. -/
def trimChars (s : List Char) : List Char :=
  ((s.dropWhile Char.isWhitespace).reverse.dropWhile Char.isWhitespace).reverse

/-- Rust `str::trim_end`. -/
def trimEndChars (s : List Char) : List Char :=
  (s.reverse.dropWhile Char.isWhitespace).reverse

/-- Rust `str::contains` (substring containment). -/
def containsSub (hay needle : List Char) : Bool :=
  hay.tails.any (fun t => needle.isPrefixOf t)

/-- Substring containment on `String`s (used on strict-parser error text). -/
def strContains (hay needle : String) : Bool :=
  containsSub hay.data needle.data

namespace ParseState

/-- `ParseState::new` (the caller passes the trimmed input). -/
def new (input : List Char) : ParseState :=
  { input := input, position := 0, stack := [JsonContext.Root], output := [] }

/-- `ParseState::current_char` = `input.chars().nth(position)`. -/
def currentChar (st : ParseState) : Option Char :=
  (st.input.drop st.position).head?

/-- `ParseState::peek_chars`. -/
def peekChars (st : ParseState) (count : Nat) : List Char :=
  (st.input.drop st.position).take count

/-- `ParseState::advance` (the consumed characters, returned by the source,
are ignored at every call site, so only the state change is modelled). -/
def advance (st : ParseState) (count : Nat) : ParseState :=
  { st with position := st.position + count }

/-- `ParseState::remaining` as a character sequence. -/
def remaining (st : ParseState) : List Char :=
  st.input.drop st.position

/-- `ParseState::is_finished`. -/
def isFinished (st : ParseState) : Bool :=
  st.position ≥ st.input.length

/-- `ParseState::current_context` (`stack.last().unwrap_or(&Root)`). -/
def currentContext (st : ParseState) : JsonContext :=
  st.stack.head?.getD JsonContext.Root

/-- `ParseState::push_context`. -/
def pushContext (st : ParseState) (c : JsonContext) : ParseState :=
  { st with stack := c :: st.stack }

/-- `ParseState::pop_context`: pops only while more than one element is on
the stack, otherwise returns `None` and leaves the state unchanged. -/
def popContext (st : ParseState) : Option JsonContext × ParseState :=
  if st.stack.length > 1 then
    (st.stack.head?, { st with stack := st.stack.tail })
  else
    (none, st)

/-- `state.output.push(c)`. -/
def pushOut (st : ParseState) (c : Char) : ParseState :=
  { st with output := st.output ++ [c] }

/-- `state.output.push_str(s)`. -/
def pushOutStr (st : ParseState) (s : List Char) : ParseState :=
  { st with output := st.output ++ s }

/-- `ParseState::is_sq_key_or_value`. -/
def isSqKeyOrValue (st : ParseState) : Bool :=
  st.currentContext = JsonContext.SingleQuoteValue ||
    st.currentContext = JsonContext.SingleQuoteProperty

/-- `ParseState::is_key_or_value`. -/
def isKeyOrValue (st : ParseState) : Bool :=
  st.currentContext = JsonContext.SingleQuoteValue ||
    st.currentContext = JsonContext.DoubleQuoteValue ||
    st.currentContext = JsonContext.SingleQuoteProperty ||
    st.currentContext = JsonContext.DoubleQuoteProperty

/-- `ParseState::is_dq_key_or_value`. -/
def isDqKeyOrValue (st : ParseState) : Bool :=
  st.currentContext = JsonContext.DoubleQuoteValue ||
    st.currentContext = JsonContext.DoubleQuoteProperty

/-- `ParseState::is_value`. -/
def isValue (st : ParseState) : Bool :=
  st.currentContext = JsonContext.SingleQuoteValue ||
    st.currentContext = JsonContext.DoubleQuoteValue

/-- `ParseState::is_prop`. -/
def isProp (st : ParseState) : Bool :=
  st.currentContext = JsonContext.SingleQuoteProperty ||
    st.currentContext = JsonContext.DoubleQuoteProperty

end ParseState

/-- Embedding of `enum FuzzyJsonError` (the wrapped `serde_json::Error` of
the `JsonError` variant is modelled by its message string). -/
inductive FuzzyError where
  | parseError (pos : Nat) (msg : String)
  | repairFailed (msg : String)
  | jsonError (msg : String)
deriving DecidableEq, Repr

/-- Embedding of `struct ParserOptions`. -/
structure ParserOptions where
  autoRepair : Bool
  allowTrailingCommas : Bool
  allowComments : Bool
  allowSingleQuotes : Bool
  allowUnquotedKeys : Bool
  maxRepairAttempts : Nat
  strictMode : Bool
  aggressiveTruncationRepair : Bool
deriving DecidableEq, Repr

/-- `ParserOptions::default`. -/
def defaultOptions : ParserOptions :=
  { autoRepair := true
    allowTrailingCommas := true
    allowComments := true
    allowSingleQuotes := true
    allowUnquotedKeys := false
    maxRepairAttempts := 1500
    strictMode := false
    aggressiveTruncationRepair := true }

/-! ## State handlers

Every handler in the source returns `Ok(true)` on every path (no handler
ever raises and none returns `false`), so `handle` is modelled as a total
function `ParseState → ParseState × Bool` whose Bool is the source's
`should_continue` result. -/

/-- Whitespace-skipping loop shared (verbatim, in the source) by the
Whitespace, Colon and Comma handlers: consume Unicode whitespace and the
two-character digraph backslash-`n`, advancing 2 for the digraph and 1
otherwise.  The list argument is the caller's `state.remaining()`. -/
def skipWsDigraph : List Char → ParseState → ParseState
  | '\\' :: 'n' :: rest, st => skipWsDigraph rest (st.advance 2)
  | c :: rest, st => if c.isWhitespace then skipWsDigraph rest (st.advance 1) else st
  | [], st => st

/-- `WhitespaceHandler::can_handle`. -/
def whitespaceCanHandle (st : ParseState) : Bool :=
  (st.currentChar.map Char.isWhitespace).getD false ||
    ['\\', 'n'].isPrefixOf st.remaining

/-- `WhitespaceHandler::handle`. -/
def whitespaceHandle (st : ParseState) : ParseState × Bool :=
  (skipWsDigraph st.remaining st, true)

/-- `LiteralHandler::can_handle` (note: the predicate trims `remaining`,
while `handle` does not). -/
def literalCanHandle (st : ParseState) : Bool :=
  let r := trimChars st.remaining
  (st.currentContext = JsonContext.Array ||
      st.currentContext = JsonContext.Colon ||
      st.currentContext.isKey) &&
    ("true".data.isPrefixOf r || "false".data.isPrefixOf r ||
      "null".data.isPrefixOf r || "undefined".data.isPrefixOf r)

/-- `LiteralHandler::handle`: emit the JSON literal (`undefined` becomes
`null`), consume the source token, then pop once unless in an array. -/
def literalHandle (st : ParseState) : ParseState × Bool :=
  let r := st.remaining
  let st :=
    if "true".data.isPrefixOf r then (st.pushOutStr "true".data).advance 4
    else if "false".data.isPrefixOf r then (st.pushOutStr "false".data).advance 5
    else if "null".data.isPrefixOf r then (st.pushOutStr "null".data).advance 4
    else if "undefined".data.isPrefixOf r then (st.pushOutStr "null".data).advance 9
    else st
  let st := if st.currentContext ≠ JsonContext.Array then st.popContext.2 else st
  (st, true)

/-- `ColonHandler::can_handle`. -/
def colonCanHandle (st : ParseState) : Bool :=
  [':'].isPrefixOf st.remaining

/-- `ColonHandler::handle`. -/
def colonHandle (st : ParseState) : ParseState × Bool :=
  let st :=
    if st.isProp then (st.popContext.2).pushContext JsonContext.Colon else st
  let st :=
    if [':'].isPrefixOf st.remaining then (st.pushOut ':').advance 1 else st
  (skipWsDigraph st.remaining st, true)

/-- `CommaHandler::can_handle`. -/
def commaCanHandle (st : ParseState) : Bool :=
  [','].isPrefixOf st.remaining

/-- `CommaHandler::handle`: consume the comma and following whitespace; if
the next significant character is a closing brace, emit it and pop
(swallowing the stray comma), otherwise emit the comma. -/
def commaHandle (st : ParseState) : ParseState × Bool :=
  if [','].isPrefixOf st.remaining then
    let st := st.advance 1
    let st := skipWsDigraph st.remaining st
    if st.currentChar = some rbrace then
      ((((st.pushOut rbrace).advance 1).popContext).2, true)
    else
      (st.pushOut ',', true)
  else
    (st, true)

/-- `StringHandler::can_handle`. -/
def stringCanHandle (st : ParseState) : Bool :=
  (st.isSqKeyOrValue && st.currentChar = some '\'') ||
    (st.isDqKeyOrValue && st.currentChar = some '"') ||
    (!st.isKeyOrValue &&
      (st.currentChar = some '"' || st.currentChar = some '\''))

/-- The copy loop of `StringHandler::handle`: copy characters (honoring
backslash escape pairs) until the boundary quote, emit `"` for the
boundary and pop when in a value context.  The list argument is the
caller's `state.remaining()`. -/
def strCopy (boundary : Char) : List Char → ParseState → ParseState
  | [], st => st
  | c :: rest, st =>
    if c = boundary then
      let st := (st.pushOut '"').advance 1
      if st.isValue then st.popContext.2 else st
    else if c = '\\' then
      match rest with
      | e :: rest' =>
        strCopy boundary rest' ((((st.pushOut '\\').advance 1).pushOut e).advance 1)
      | [] => strCopy boundary [] ((st.pushOut '\\').advance 1)
    else
      strCopy boundary rest ((st.pushOut c).advance 1)

/-- `StringHandler::handle`.  The `none` branch is unreachable whenever
`can_handle` holds (the source unwraps). -/
def stringHandle (st : ParseState) : ParseState × Bool :=
  match st.currentChar with
  | none => (st, true)
  | some boundary =>
    let st := (st.pushOut '"').advance 1
    let st :=
      if st.currentContext = JsonContext.Colon then
        (st.popContext.2).pushContext
          (if boundary = '"' then JsonContext.DoubleQuoteValue
            else JsonContext.SingleQuoteValue)
      else if st.isProp then st
      else if st.currentContext = JsonContext.Array then
        st.pushContext
          (if boundary = '"' then JsonContext.DoubleQuoteValue
            else JsonContext.SingleQuoteValue)
      else
        st.pushContext
          (if boundary = '"' then JsonContext.DoubleQuoteProperty
            else JsonContext.SingleQuoteProperty)
    (strCopy boundary st.remaining st, true)

/-- `NumberHandler::can_handle`. -/
def numberCanHandle (st : ParseState) : Bool :=
  (st.currentChar.map (fun c => c.isDigit || c = '-')).getD false

/-- The numeric-lexeme loop of `NumberHandler::handle`. -/
def numLex : List Char → ParseState → ParseState
  | [], st => st
  | c :: rest, st =>
    if c.isDigit || c = '-' || c = '+' || c = '.' || c = 'e' || c = 'E' then
      numLex rest ((st.pushOut c).advance 1)
    else st

/-- `NumberHandler::handle`. -/
def numberHandle (st : ParseState) : ParseState × Bool :=
  let st :=
    if st.currentContext = JsonContext.Colon then
      (st.popContext.2).pushContext JsonContext.DoubleQuoteValue
    else if st.currentContext = JsonContext.DoubleQuoteProperty then
      ((st.popContext.2).pushContext JsonContext.DoubleQuoteValue).pushOut ':'
    else if st.currentContext = JsonContext.Array then
      st.pushContext JsonContext.DoubleQuoteValue
    else
      (st.pushContext JsonContext.DoubleQuoteProperty).pushOut '"'
  let st := numLex st.remaining st
  let st :=
    if st.currentContext = JsonContext.DoubleQuoteValue then st.popContext.2
    else if st.currentContext = JsonContext.DoubleQuoteProperty &&
        (st.currentChar.map
            (fun c => c.isWhitespace || c = ':' || c = rbrace)).getD true then
      st.pushOut '"'
    else st
  (st, true)

/-- `ObjectHandler::can_handle`. -/
def objectCanHandle (st : ParseState) : Bool :=
  st.currentChar = some lbrace ||
    (st.currentContext ≠ JsonContext.Root && st.currentChar = some rbrace)

/-- `ObjectHandler::handle`. -/
def objectHandle (st : ParseState) : ParseState × Bool :=
  let st :=
    if st.currentContext = JsonContext.Colon then st.popContext.2 else st
  match st.currentChar with
  | some c =>
    if c = lbrace then
      ((((st.pushOut lbrace).pushContext JsonContext.Object).advance 1), true)
    else if c = rbrace then
      ((((st.pushOut rbrace).popContext).2.advance 1), true)
    else (st, true)
  | none => (st, true)

/-- `ArrayHandler::can_handle`. -/
def arrayCanHandle (st : ParseState) : Bool :=
  st.currentChar = some '[' || st.currentChar = some ']'

/-- `ArrayHandler::handle`. -/
def arrayHandle (st : ParseState) : ParseState × Bool :=
  let st :=
    if st.currentContext = JsonContext.Colon then st.popContext.2 else st
  match st.currentChar with
  | some c =>
    if c = '[' then
      ((((st.pushOut '[').pushContext JsonContext.Array).advance 1), true)
    else if c = ']' then
      ((((st.pushOut ']').popContext).2.advance 1), true)
    else (st, true)
  | none => (st, true)

/-- `char::to_ascii_lowercase`. -/
def asciiLower (c : Char) : Char :=
  if 'A' ≤ c && c ≤ 'Z' then Char.ofNat (c.toNat + 32) else c

/-- `VALID_KEY_FIRST_CHARS`. -/
def validKeyFirstChars : List Char :=
  ['a', 'b', 'c', 'd', 'e', 'f', 'g', 'h', 'i', 'j', 'k', 'l', 'm', 'n',
    'o', 'p', 'q', 'r', 's', 't', 'u', 'v', 'w', 'x', 'y', 'z', '_']

/-- `VALID_KEY_REST_OF_CHARS`. -/
def validKeyRestChars : List Char :=
  ['1', '2', '3', '4', '5', '6', '7', '8', '9', '0']

/-- `NoQuotesKeyHandler::can_handle`: top context `Object` and the current
character an ASCII letter (after ASCII lowercasing) or underscore.  Note
that the handler does not consult any parser option. -/
def noQuotesCanHandle (st : ParseState) : Bool :=
  st.currentContext = JsonContext.Object &&
    (st.currentChar.map
        (fun c => validKeyFirstChars.contains (asciiLower c))).getD false

/-- The identifier-copy loop of `NoQuotesKeyHandler::handle`: the closing
quote is emitted only when a non-identifier character stops the loop (not
when the input runs out). -/
def noQuotesLoop : List Char → ParseState → ParseState
  | [], st => st
  | c :: rest, st =>
    if validKeyFirstChars.contains (asciiLower c) ||
        validKeyRestChars.contains c then
      noQuotesLoop rest ((st.pushOut c).advance 1)
    else
      st.pushOut '"'

/-- `NoQuotesKeyHandler::handle`. -/
def noQuotesHandle (st : ParseState) : ParseState × Bool :=
  (noQuotesLoop st.remaining
    ((st.pushContext JsonContext.DoubleQuoteProperty).pushOut '"'), true)

/-- The nine state handlers, as a tagged variant (design note §9 of the
spec: runtime trait objects replaced by a single dispatch). -/
inductive HandlerKind where
  | whitespace
  | literal
  | colonTok
  | commaTok
  | stringTok
  | numberTok
  | objectTok
  | arrayTok
  | noQuotesKey
deriving DecidableEq, Repr

/-- Dispatch of `StateHandler::can_handle`. -/
def canHandle : HandlerKind → ParseState → Bool
  | .whitespace => whitespaceCanHandle
  | .literal => literalCanHandle
  | .colonTok => colonCanHandle
  | .commaTok => commaCanHandle
  | .stringTok => stringCanHandle
  | .numberTok => numberCanHandle
  | .objectTok => objectCanHandle
  | .arrayTok => arrayCanHandle
  | .noQuotesKey => noQuotesCanHandle

/-- Dispatch of `StateHandler::handle`. -/
def runHandler : HandlerKind → ParseState → ParseState × Bool
  | .whitespace => whitespaceHandle
  | .literal => literalHandle
  | .colonTok => colonHandle
  | .commaTok => commaHandle
  | .stringTok => stringHandle
  | .numberTok => numberHandle
  | .objectTok => objectHandle
  | .arrayTok => arrayHandle
  | .noQuotesKey => noQuotesHandle

/-- `register_default_handlers`, in registration order.  The source
registers all nine handlers unconditionally; no parser option is
consulted. -/
def handlerList : List HandlerKind :=
  [.whitespace, .literal, .colonTok, .commaTok, .stringTok, .numberTok,
    .objectTok, .arrayTok, .noQuotesKey]

/-! ## Repair strategies

Every strategy `repair` in the source returns `Ok(())` on every path, so
repairs are modelled as total functions `ParseState → ParseState`
(`String` error parameter where the source consults it). -/

/-- `TrailingCommaStrategy::can_repair`. -/
def trailingCommaCanRepair (st : ParseState) : Bool :=
  match st.currentChar with
  | some ch =>
    ch = ',' &&
      ((st.peekChars 2).get? 1 |>.map (fun next => next = rbrace || next = ']')).getD false
  | none => false

/-- `TrailingCommaStrategy::repair`: skip the comma. -/
def trailingCommaRepair (st : ParseState) : ParseState :=
  st.advance 1

/-- `MissingQuotesStrategy::can_repair`.  The source's Unicode
`char::is_alphabetic` is modelled on the ASCII range by `Char.isAlpha`. -/
def missingQuotesCanRepair (st : ParseState) (error : String) : Bool :=
  (strContains error "expected" && strContains error "quote") ||
    (st.currentContext = JsonContext.DoubleQuoteProperty &&
      (st.currentChar.map Char.isAlpha).getD false)

/-- The copy loop of `MissingQuotesStrategy::repair`: copy verbatim until a
delimiter (whitespace, colon, comma, closing brace or bracket). -/
def mqCopy : List Char → ParseState → ParseState
  | [], st => st
  | c :: rest, st =>
    if c.isWhitespace || c = ':' || c = ',' || c = rbrace || c = ']' then st
    else mqCopy rest ((st.pushOut c).advance 1)

/-- `MissingQuotesStrategy::repair`: the emitted delimiter is a single
quote when the current context is `SingleQuoteProperty`, a double quote
otherwise (the debug print of the source is ignored). -/
def missingQuotesRepair (st : ParseState) : ParseState :=
  let st := st.pushOut
    (if st.currentContext = JsonContext.SingleQuoteProperty then '\'' else '"')
  let st := mqCopy st.remaining st
  st.pushOut
    (if st.currentContext = JsonContext.SingleQuoteProperty then '\'' else '"')

/-- `MissingBracketsStrategy::can_repair`. -/
def missingBracketsCanRepair (error : String) : Bool :=
  strContains error "missing" &&
    (strContains error "\x7d" || strContains error "]")

/-- `MissingBracketsStrategy::repair`. -/
def missingBracketsRepair (st : ParseState) (error : String) : ParseState :=
  if strContains error "\x7d" then ((st.pushOut rbrace).popContext).2
  else if strContains error "]" then ((st.pushOut ']').popContext).2
  else st

/-- `CodeBlockMarkersStrategy::can_repair`. -/
def codeBlockCanRepair (st : ParseState) : Bool :=
  "```".data.isPrefixOf st.remaining || "json```".data.isPrefixOf st.remaining

/-- `CodeBlockMarkersStrategy::repair`. -/
def codeBlockRepair (st : ParseState) : ParseState :=
  if "json```".data.isPrefixOf st.remaining then st.advance 7
  else if "```json".data.isPrefixOf st.remaining then st.advance 7
  else if "```".data.isPrefixOf st.remaining then st.advance 3
  else st

/-- `TrimStrayContentInBeginningStrategy::can_repair` — the source's
disjunction `current != '\x7b' || current != '['` is kept verbatim (it is
a tautology). -/
def trimStrayBeginCanRepair (st : ParseState) : Bool :=
  st.currentContext = JsonContext.Root &&
    (st.currentChar ≠ some lbrace || st.currentChar ≠ some '[')

/-- The skip loop of `TrimStrayContentInBeginningStrategy::repair`. -/
def tsbLoop : List Char → ParseState → ParseState
  | [], st => st
  | c :: rest, st =>
    if c ≠ lbrace && c ≠ '[' then tsbLoop rest (st.advance 1) else st

/-- `TrimStrayContentInBeginningStrategy::repair`. -/
def trimStrayBeginRepair (st : ParseState) : ParseState :=
  tsbLoop st.remaining st

/-- `TrimStrayContentInEndStrategy::can_repair`. -/
def trimStrayEndCanRepair (st : ParseState) : Bool :=
  st.currentContext = JsonContext.Root

/-- The skip-to-end loop of `TrimStrayContentInEndStrategy::repair`. -/
def tseLoop : List Char → ParseState → ParseState
  | [], st => st
  | _ :: rest, st => tseLoop rest (st.advance 1)

/-- `TrimStrayContentInEndStrategy::repair` (debug prints ignored). -/
def trimStrayEndRepair (st : ParseState) : ParseState :=
  tseLoop st.remaining st

/-- `SingleQuotesStrategy::can_repair`. -/
def singleQuotesCanRepair (st : ParseState) : Bool :=
  st.currentChar = some '\''

/-- The copy loop of `SingleQuotesStrategy::repair`: stop (consuming) at a
single quote; any embedded double quote is preceded by a backslash. -/
def sqCopy : List Char → ParseState → ParseState
  | [], st => st
  | c :: rest, st =>
    if c = '\'' then st.advance 1
    else if c = '"' then sqCopy rest (((st.pushOut '\\').pushOut c).advance 1)
    else sqCopy rest ((st.pushOut c).advance 1)

/-- `SingleQuotesStrategy::repair`. -/
def singleQuotesRepair (st : ParseState) : ParseState :=
  let st := (st.pushOut '"').advance 1
  let st := sqCopy st.remaining st
  let st :=
    if st.currentContext = JsonContext.Colon then st.popContext.2 else st
  st.pushOut '"'

/-- `TruncationRepairStrategy::can_repair`. -/
def truncationCanRepair (st : ParseState) (error : String) : Bool :=
  st.isFinished || strContains error "unexpected end" ||
    strContains error "unclosed" ||
    ((trimChars st.remaining).isEmpty && !st.stack.isEmpty)

/-- The scanner of `TruncationRepairStrategy::is_in_unclosed_string`. -/
def unclosedScan : List Char → Bool → Bool → Char → Bool
  | [], inString, _, _ => inString
  | c :: rest, inString, escapeNext, quoteChar =>
    if escapeNext then unclosedScan rest inString false quoteChar
    else if c = '\\' && inString then unclosedScan rest inString true quoteChar
    else if (c = '"' || c = '\'') && !inString then unclosedScan rest true false c
    else if inString && c = quoteChar then unclosedScan rest false false quoteChar
    else unclosedScan rest inString false quoteChar

/-- `TruncationRepairStrategy::is_in_unclosed_string`. -/
def isInUnclosedString (output : List Char) : Bool :=
  unclosedScan output false false '"'

/-- The per-frame closing tokens of
`TruncationRepairStrategy::close_all_scopes` (one arm of its `match` over
the context stack, against the fixed output buffer). -/
def frameClosing (out : List Char) : JsonContext → List Char
  | .Object => [rbrace]
  | .Array => [']']
  | .DoubleQuoteProperty | .SingleQuoteProperty =>
    (if out.getLast? ≠ some '"' && out.count '"' % 2 ≠ 0 then ['"'] else []) ++
      [':', '0']
  | .Colon => ['0']
  | .DoubleQuoteValue =>
    if out.getLast? = some '"' && out.count '"' % 2 ≠ 0 then ['"'] else []
  | .Root | .SingleQuoteValue => []

/-- `TruncationRepairStrategy::close_all_scopes`: walk the stack top to
bottom collecting closings, prepend a quote when the output scans as an
unclosed string, strip one trailing comma (with the whitespace after it),
then append the closings. -/
def closeAllScopes (st : ParseState) : ParseState :=
  let needs := st.stack.flatMap (frameClosing st.output)
  let needs := if isInUnclosedString st.output then '"' :: needs else needs
  let base :=
    if (trimEndChars st.output).getLast? = some ',' then
      (trimEndChars st.output).dropLast
    else st.output
  { st with output := base ++ needs }

/-- `IncompletePropertyStrategy::can_repair`. -/
def incompletePropCanRepair (st : ParseState) : Bool :=
  let o := trimEndChars st.output
  o.getLast? = some ':' ||
    (o.getLast? = some '"' && [':'].isPrefixOf (trimChars st.remaining))

/-- The colon-skip loop of `IncompletePropertyStrategy::repair`. -/
def ipSkipColon : List Char → ParseState → ParseState
  | [], st => st
  | c :: rest, st =>
    if c = ':' then st.advance 1
    else if !c.isWhitespace then st
    else ipSkipColon rest (st.advance 1)

/-- `IncompletePropertyStrategy::repair`. -/
def incompletePropRepair (st : ParseState) : ParseState :=
  let o := trimEndChars st.output
  if o.getLast? = some ':' then st.pushOutStr " null".data
  else if o.getLast? = some '"' && [':'].isPrefixOf (trimChars st.remaining) then
    ipSkipColon st.remaining (st.pushOutStr ": null".data)
  else st

/-- `IncompleteArrayStrategy::can_repair`. -/
def incompleteArrCanRepair (st : ParseState) : Bool :=
  st.currentContext = JsonContext.Array &&
    (trimEndChars st.output).getLast? = some ',' &&
    (trimChars st.remaining).isEmpty

/-- `IncompleteArrayStrategy::repair`. -/
def incompleteArrRepair (st : ParseState) : ParseState :=
  let t := trimEndChars st.output
  let st := if t.getLast? = some ',' then { st with output := t.dropLast } else st
  st.pushOut ']'

/-- The ten repair strategies as a tagged variant. -/
inductive StrategyKind where
  | truncation
  | codeBlock
  | singleQuotes
  | incompleteProp
  | incompleteArr
  | trailingComma
  | missingQuotes
  | trimStrayBegin
  | trimStrayEnd
  | missingBrackets
deriving DecidableEq, Repr

/-- The `priority()` of each strategy. -/
def strategyPriority : StrategyKind → Nat
  | .truncation => 95
  | .codeBlock => 90
  | .singleQuotes => 85
  | .incompleteProp => 85
  | .incompleteArr => 80
  | .trailingComma => 80
  | .missingQuotes => 70
  | .trimStrayBegin => 70
  | .trimStrayEnd => 70
  | .missingBrackets => 60

/-- Dispatch of `RepairStrategy::can_repair`. -/
def canRepair : StrategyKind → ParseState → String → Bool
  | .truncation => truncationCanRepair
  | .codeBlock => fun st _ => codeBlockCanRepair st
  | .singleQuotes => fun st _ => singleQuotesCanRepair st
  | .incompleteProp => fun st _ => incompletePropCanRepair st
  | .incompleteArr => fun st _ => incompleteArrCanRepair st
  | .trailingComma => fun st _ => trailingCommaCanRepair st
  | .missingQuotes => missingQuotesCanRepair
  | .trimStrayBegin => fun st _ => trimStrayBeginCanRepair st
  | .trimStrayEnd => fun st _ => trimStrayEndCanRepair st
  | .missingBrackets => fun _ error => missingBracketsCanRepair error

/-- Dispatch of `RepairStrategy::repair`. -/
def runRepair : StrategyKind → ParseState → String → ParseState
  | .truncation => fun st _ => closeAllScopes st
  | .codeBlock => fun st _ => codeBlockRepair st
  | .singleQuotes => fun st _ => singleQuotesRepair st
  | .incompleteProp => fun st _ => incompletePropRepair st
  | .incompleteArr => fun st _ => incompleteArrRepair st
  | .trailingComma => fun st _ => trailingCommaRepair st
  | .missingQuotes => fun st _ => missingQuotesRepair st
  | .trimStrayBegin => fun st _ => trimStrayBeginRepair st
  | .trimStrayEnd => fun st _ => trimStrayEndRepair st
  | .missingBrackets => missingBracketsRepair

/-- The strategy list of `register_default_strategies` after the stable
sort by descending priority that `register_strategy` performs: within
equal priorities registration order is kept (single quotes before
incomplete property, incomplete array before trailing comma, missing
quotes before the two stray-content trims). -/
def strategyList : List StrategyKind :=
  [.truncation, .codeBlock, .singleQuotes, .incompleteProp, .incompleteArr,
    .trailingComma, .missingQuotes, .trimStrayBegin, .trimStrayEnd,
    .missingBrackets]

/-! ## Driver -/

/-- `FuzzyJsonParser::try_repair_strategies`: run the first strategy whose
predicate matches; report whether any matched. -/
def tryRepairStrategies (st : ParseState) (error : String) : Bool × ParseState :=
  match strategyList.find? (fun k => canRepair k st error) with
  | some k => (true, runRepair k st error)
  | none => (false, st)

/-- Outcome of one iteration of the repair loop. -/
inductive StepOut where
  | cont (st : ParseState)
  | stop (out : List Char)
  | fail (e : FuzzyError)
deriving DecidableEq, Repr

/-- One iteration of the `repair_json` loop body: the first handler whose
predicate matches handles the token (no handler in the source ever raises,
so the catch-and-retry branch of the driver is unreachable); if none
matches, strategies are tried with the original strict-parser error; if
that also fails the driver reports `ParseError` (its formatted message is
modelled by a fixed string, no strategy or handler inspects it). -/
def loopStep (error : String) (st : ParseState) : StepOut :=
  match handlerList.find? (fun k => canHandle k st) with
  | some k =>
    let r := runHandler k st
    if r.2 then .cont r.1 else .stop r.1.output
  | none =>
    match tryRepairStrategies st error with
    | (true, st') => .cont st'
    | (false, _) => .fail (.parseError st.position "No handler for current state")

/-- Result of the repair loop, carrying the number of iterations
(`attempts`) executed. -/
inductive LoopOut where
  | early (out : List Char) (attempts : Nat)
  | exited (st : ParseState) (attempts : Nat)
  | failed (e : FuzzyError) (attempts : Nat)
deriving DecidableEq, Repr

/-- The `while !state.is_finished() && attempts < max_repair_attempts`
loop of `repair_json`; the fuel argument equals
`max_repair_attempts - attempts`, so fuel `0` is exactly the loop
condition `attempts < max` failing. -/
def loopGo (error : String) : Nat → ParseState → Nat → LoopOut
  | 0, st, attempts => .exited st attempts
  | fuel + 1, st, attempts =>
    if st.isFinished then .exited st attempts
    else
      match loopStep error st with
      | .cont st' => loopGo error fuel st' (attempts + 1)
      | .stop out => .early out attempts
      | .fail e => .failed e attempts

/-- `FuzzyJsonParser::repair_json`: build the state from the trimmed
input, run strategies once (prelude), run the loop, run strategies once
more when the top context is not `Root`, fail when the attempt cap was
reached, otherwise return the rewritten output. -/
def repairJson (opts : ParserOptions) (jsonStr : List Char) (error : String) :
    Except FuzzyError (List Char) :=
  let st0 := ParseState.new (trimChars jsonStr)
  let st1 := (tryRepairStrategies st0 error).2
  match loopGo error opts.maxRepairAttempts st1 0 with
  | .early out _ => .ok out
  | .failed e _ => .error e
  | .exited st attempts =>
    let st2 :=
      if st.currentContext ≠ JsonContext.Root then
        (tryRepairStrategies st error).2
      else st
    if attempts ≥ opts.maxRepairAttempts then
      .error (.repairFailed "Too many repair attempts")
    else .ok st2.output

/-- The number of loop iterations `repair_json` executes on the given
input and strict-parser error text. -/
def repairIterations (opts : ParserOptions) (jsonStr : List Char)
    (error : String) : Nat :=
  match loopGo error opts.maxRepairAttempts
      ((tryRepairStrategies (ParseState.new (trimChars jsonStr)) error).2) 0 with
  | .early _ a => a
  | .exited _ a => a
  | .failed _ a => a

/-- `repair_json`'s result as an `Option` (used to state concrete runs
with decidable equality). -/
def repairOk (opts : ParserOptions) (jsonStr : List Char) (error : String) :
    Option (List Char) :=
  (repairJson opts jsonStr error).toOption

/-- `FuzzyJsonParser::parse_value`, generic in the external strict JSON
parser (serde_json, an out-of-scope collaborator: it consumes a string and
returns a materialized value or an error message) and in the repair
routine (so that independence from the repair machinery is statable). -/
def parseValueWith {α : Type} (strict : List Char → Except String α)
    (repairFn : List Char → String → Except FuzzyError (List Char))
    (opts : ParserOptions) (jsonStr : List Char) : Except FuzzyError α :=
  match strict jsonStr with
  | .ok value => .ok value
  | .error e =>
    if !opts.autoRepair then .error (.repairFailed "Auto-repair disabled")
    else
      match repairFn jsonStr e with
      | .ok repaired =>
        match strict repaired with
        | .ok value => .ok value
        | .error e2 => .error (.jsonError e2)
      | .error fe => .error fe

/-- `FuzzyJsonParser::parse_value` with the engine's own `repair_json`. -/
def parseValue {α : Type} (strict : List Char → Except String α)
    (opts : ParserOptions) (jsonStr : List Char) : Except FuzzyError α :=
  parseValueWith strict (repairJson opts) opts jsonStr

/-! ## Aggressive truncation pre-pass (`aggressively_close_scopes`) -/

/-- The scanning state of `aggressively_close_scopes`: the local
`ParseState` of the source is used only as cursor and output buffer, so
the scan is modelled as an accumulator over the remaining characters
(every arm of the source loop advances by exactly one character). -/
structure ScanAcc where
  out : List Char
  inString : Bool
  quoteChar : Char
  escapeNext : Bool
  scopes : List (JsonContext × Nat)
  pos : Nat
deriving DecidableEq, Repr

/-- The character loop of `aggressively_close_scopes`: copy every
character verbatim, tracking string state (honoring backslash escapes)
and an independent scope stack of `Object`/`Array` frames with their
positions. -/
def scanGo : List Char → ScanAcc → ScanAcc
  | [], a => a
  | c :: rest, a =>
    if a.escapeNext then
      scanGo rest { a with out := a.out ++ [c], pos := a.pos + 1, escapeNext := false }
    else if c = '\\' && a.inString then
      scanGo rest { a with out := a.out ++ [c], pos := a.pos + 1, escapeNext := true }
    else if (c = '"' || c = '\'') && !a.inString then
      scanGo rest { a with out := a.out ++ [c], pos := a.pos + 1, inString := true, quoteChar := c }
    else if a.inString && c = a.quoteChar then
      scanGo rest { a with out := a.out ++ [c], pos := a.pos + 1, inString := false }
    else if c = lbrace && !a.inString then
      scanGo rest { a with out := a.out ++ [c], scopes := (JsonContext.Object, a.pos) :: a.scopes, pos := a.pos + 1 }
    else if c = '[' && !a.inString then
      scanGo rest { a with out := a.out ++ [c], scopes := (JsonContext.Array, a.pos) :: a.scopes, pos := a.pos + 1 }
    else if c = rbrace && !a.inString then
      let scopes' := match a.scopes with
        | (JsonContext.Object, _) :: r => r
        | s => s
      scanGo rest { a with out := a.out ++ [c], scopes := scopes', pos := a.pos + 1 }
    else if c = ']' && !a.inString then
      let scopes' := match a.scopes with
        | (JsonContext.Array, _) :: r => r
        | s => s
      scanGo rest { a with out := a.out ++ [c], scopes := scopes', pos := a.pos + 1 }
    else
      scanGo rest { a with out := a.out ++ [c], pos := a.pos + 1 }

/-- The closing walk of `close_remaining_scopes`: pop frames last-in
first-out, emitting the matching closer; stop at `Root`. -/
def closeScopesList : List (JsonContext × Nat) → List Char
  | [] => []
  | (ctx, _) :: rest =>
    match ctx with
    | .Object => rbrace :: closeScopesList rest
    | .Array => ']' :: closeScopesList rest
    | .Root => []
    | _ => closeScopesList rest

/-- The initial scan accumulator (`in_string = false`,
`string_quote_char = '"'`, scope stack `[(Root, 0)]`). -/
def initScanAcc : ScanAcc :=
  { out := [], inString := false, quoteChar := '"', escapeNext := false,
    scopes := [(JsonContext.Root, 0)], pos := 0 }

/-- `FuzzyJsonParser::aggressively_close_scopes` (+
`close_remaining_scopes`).  The source returns `Ok` on every path, so the
`Result` wrapper is dropped.  When the option is off the input is returned
unchanged; otherwise the trimmed input is scanned, an unclosed string is
closed with its own quote character, one trailing comma (after trailing
whitespace) is stripped, and the unclosed scopes are appended. -/
def aggressivelyCloseScopes (opts : ParserOptions) (jsonStr : List Char) :
    List Char :=
  if !opts.aggressiveTruncationRepair then jsonStr
  else
    let a := scanGo (trimChars jsonStr) initScanAcc
    let out1 := a.out ++ (if a.inString then [a.quoteChar] else [])
    let out2 :=
      if (trimEndChars out1).getLast? = some ',' then (trimEndChars out1).dropLast
      else out1
    out2 ++ closeScopesList a.scopes

/-! ## A strict JSON validity checker

Modelled from the spec: the strict JSON parser (serde_json) is an
out-of-scope external collaborator ("consumes a string, returns a value or
an error object carrying a message string"); for claims about its
*acceptance* of repaired output it is modelled by a standard JSON grammar
checker (RFC 8259 syntax: value, object, array, string with escapes,
number, `true`/`false`/`null`). -/

/-- JSON insignificant whitespace. -/
def jsWs (c : Char) : Bool :=
  c = ' ' || c = '\t' || c = '\n' || c = '\r'

/-- Skip JSON whitespace. -/
def skipJsWs (cs : List Char) : List Char :=
  cs.dropWhile jsWs

/-- Hexadecimal digit. -/
def isHexDigit (c : Char) : Bool :=
  c.isDigit || ('a' ≤ c && c ≤ 'f') || ('A' ≤ c && c ≤ 'F')

/-- JSON string body after the opening quote; returns the rest after the
closing quote. -/
def pStr : List Char → Option (List Char)
  | [] => none
  | '"' :: rest => some rest
  | '\\' :: rest =>
    match rest with
    | [] => none
    | e :: rest' =>
      if e = '"' || e = '\\' || e = '/' || e = 'b' || e = 'f' || e = 'n' ||
          e = 'r' || e = 't' then
        pStr rest'
      else if e = 'u' then
        match rest' with
        | h1 :: h2 :: h3 :: h4 :: rest2 =>
          if isHexDigit h1 && isHexDigit h2 && isHexDigit h3 && isHexDigit h4 then
            pStr rest2
          else none
        | _ => none
      else none
  | c :: rest => if c.toNat ≥ 0x20 then pStr rest else none

/-- JSON number: exponent part. -/
def pExp (cs : List Char) : Option (List Char) :=
  match cs with
  | e :: rest =>
    if e = 'e' || e = 'E' then
      let rest := match rest with
        | s :: r => if s = '+' || s = '-' then r else s :: r
        | [] => []
      let (ds, r) := rest.span Char.isDigit
      if ds.isEmpty then none else some r
    else some cs
  | [] => some cs

/-- JSON number: fraction then exponent. -/
def pFrac (cs : List Char) : Option (List Char) :=
  match cs with
  | '.' :: rest =>
    let (ds, r) := rest.span Char.isDigit
    if ds.isEmpty then none else pExp r
  | _ => pExp cs

/-- JSON number: optional minus, integer part, fraction, exponent. -/
def pNum (cs : List Char) : Option (List Char) :=
  let cs := match cs with
    | '-' :: r => r
    | _ => cs
  match cs with
  | '0' :: rest => pFrac rest
  | c :: rest =>
    if c.isDigit then pFrac ((c :: rest).dropWhile Char.isDigit) else none
  | [] => none

mutual

/-- JSON value (fuel-indexed recursive descent). -/
def pVal : Nat → List Char → Option (List Char)
  | 0, _ => none
  | fuel + 1, cs =>
    let cs := skipJsWs cs
    match cs with
    | [] => none
    | c :: rest =>
      if c = lbrace then
        let r1 := skipJsWs rest
        match r1 with
        | d :: r2 => if d = rbrace then some r2 else pMembers fuel r1
        | [] => none
      else if c = '[' then
        let r1 := skipJsWs rest
        match r1 with
        | d :: r2 => if d = ']' then some r2 else pItems fuel r1
        | [] => none
      else if c = '"' then pStr rest
      else if "true".data.isPrefixOf cs then some (cs.drop 4)
      else if "false".data.isPrefixOf cs then some (cs.drop 5)
      else if "null".data.isPrefixOf cs then some (cs.drop 4)
      else if c = '-' || c.isDigit then pNum cs
      else none

/-- JSON object members, expecting a key at the head. -/
def pMembers : Nat → List Char → Option (List Char)
  | 0, _ => none
  | fuel + 1, cs =>
    match cs with
    | '"' :: r =>
      match pStr r with
      | some r1 =>
        match skipJsWs r1 with
        | ':' :: r3 =>
          match pVal fuel r3 with
          | some r4 =>
            match skipJsWs r4 with
            | ',' :: r6 => pMembers fuel (skipJsWs r6)
            | d :: r6 => if d = rbrace then some r6 else none
            | [] => none
          | none => none
        | _ => none
      | none => none
    | _ => none

/-- JSON array items. -/
def pItems : Nat → List Char → Option (List Char)
  | 0, _ => none
  | fuel + 1, cs =>
    match pVal fuel cs with
    | some r4 =>
      match skipJsWs r4 with
      | ',' :: r6 => pItems fuel r6
      | ']' :: r6 => some r6
      | _ => none
    | none => none

end

/-- Acceptance by the modelled strict JSON parser: a single JSON value
followed only by whitespace. -/
def strictAccepts (cs : List Char) : Bool :=
  match pVal (cs.length + 1) cs with
  | some rest => (skipJsWs rest).isEmpty
  | none => false

/-! ## Driver-level lemmas -/

/-- The iteration count carried by a loop outcome. -/
def attemptsOf : LoopOut → Nat
  | .early _ a => a
  | .exited _ a => a
  | .failed _ a => a

theorem loopGo_attempts_le (error : String) :
    ∀ (fuel : Nat) (st : ParseState) (a : Nat),
      attemptsOf (loopGo error fuel st a) ≤ a + fuel := by
  intro fuel
  induction fuel with
  | zero => intro st a; simp [loopGo, attemptsOf]
  | succ n ih =>
    intro st a
    simp only [loopGo]
    split
    · simp only [attemptsOf]; omega
    · split
      · exact le_trans (ih _ (a + 1)) (by omega)
      · simp only [attemptsOf]; omega
      · simp only [attemptsOf]; omega

/-! ## Claim theorems (first group) -/

/-- Claim C1: for every input the strict JSON parser accepts, `parse_value`
returns exactly the strict parser's value, and does so for *any* repair
routine whatsoever (i.e. without invoking the repair machinery). -/
theorem parse_strict_success_bypasses_repair {α : Type}
    (strict : List Char → Except String α) (opts : ParserOptions)
    (s : List Char) (v : α) (h : strict s = .ok v) :
    parseValue strict opts s = .ok v ∧
      ∀ repairFn, parseValueWith strict repairFn opts s = .ok v := by
  refine ⟨?_, fun repairFn => ?_⟩ <;> simp [parseValue, parseValueWith, h]

/-- Witness for C1 at a concrete strict parser and input. -/
theorem parse_strict_success_bypasses_repair_witness :
    (fun _ : List Char => (Except.ok 0 : Except String Nat)) [] = Except.ok 0 ∧
      (parseValue (fun _ : List Char => (Except.ok 0 : Except String Nat))
          defaultOptions [] = Except.ok 0 ∧
        ∀ repairFn, parseValueWith
            (fun _ : List Char => (Except.ok 0 : Except String Nat)) repairFn
            defaultOptions [] = Except.ok 0) :=
  ⟨rfl, parse_strict_success_bypasses_repair _ defaultOptions [] 0 rfl⟩

/-- Claim C9: with `auto_repair` disabled, any strict-parse failure makes
`parse_value` fail fast with the repair-disabled error, while
strict-accepted inputs still succeed. -/
theorem auto_repair_disabled_fails_fast {α : Type}
    (strict : List Char → Except String α) (opts : ParserOptions)
    (s : List Char) (hoff : opts.autoRepair = false) :
    (∀ e, strict s = .error e →
        parseValue strict opts s = .error (.repairFailed "Auto-repair disabled")) ∧
      (∀ v, strict s = .ok v → parseValue strict opts s = .ok v) := by
  constructor
  · intro e he; simp [parseValue, parseValueWith, he, hoff]
  · intro v hv; simp [parseValue, parseValueWith, hv]

/-- Witness for C9 at a concrete failing strict parser. -/
theorem auto_repair_disabled_fails_fast_witness :
    ({ defaultOptions with autoRepair := false } : ParserOptions).autoRepair
        = false ∧
      parseValue (fun _ : List Char => (Except.error "expected value" : Except String Nat))
          { defaultOptions with autoRepair := false } []
        = .error (.repairFailed "Auto-repair disabled") :=
  ⟨rfl,
    (auto_repair_disabled_fails_fast _ { defaultOptions with autoRepair := false }
        [] rfl).1 "expected value" rfl⟩

/-- Claim C10: the `aggressive_truncation_repair` option has no effect on
`parse_value` or `repair_json` (the `aggressively_close_scopes` pre-pass
is never invoked by them): flipping the option yields definitionally the
same result. -/
theorem parse_value_independent_of_aggressive_option {α : Type}
    (strict : List Char → Except String α) (opts : ParserOptions) (b : Bool)
    (s : List Char) :
    parseValue strict { opts with aggressiveTruncationRepair := b } s
        = parseValue strict opts s ∧
      ∀ e, repairJson { opts with aggressiveTruncationRepair := b } s e
        = repairJson opts s e :=
  ⟨rfl, fun _ => rfl⟩

/-- Claim C3: the truncation close-out emits the digit `0` for a `Colon`
frame, and concretely the repair of the input truncated right after a
colon rewrites to the object text with value `0`, which the strict parser
accepts (materialization of that text into the value is the external
strict parser's job). -/
theorem colon_closeout_emits_zero :
    (∀ out, frameClosing out JsonContext.Colon = ['0']) ∧
      repairOk defaultOptions "\x7b\"name\": \"test\", \"value\":".data
          "EOF while parsing a value at line 1 column 26"
        = some "\x7b\"name\":\"test\",\"value\":0\x7d".data ∧
      strictAccepts "\x7b\"name\":\"test\",\"value\":0\x7d".data = true :=
  ⟨fun _ => rfl, by decide, by decide⟩

/-- Claim C4: the repair loop of `repair_json` executes at most
`max_repair_attempts` iterations on every input and every strict-parser
error text (and the whole driver is a total function of its input). -/
theorem repair_loop_iteration_bound (opts : ParserOptions) (s : List Char)
    (error : String) :
    repairIterations opts s error ≤ opts.maxRepairAttempts := by
  have h := loopGo_attempts_le error opts.maxRepairAttempts
    ((tryRepairStrategies (ParseState.new (trimChars s)) error).2) 0
  unfold repairIterations
  revert h
  cases loopGo error opts.maxRepairAttempts
      ((tryRepairStrategies (ParseState.new (trimChars s)) error).2) 0 <;>
    · intro h; simpa [attemptsOf] using h

/-- Claim C7 counterexample: with the default configuration
(`allow_unquoted_keys = false`) the unquoted-key handler is registered and
does handle an unquoted object key: the input with bare key `a` repairs to
a quoted-key object. -/
theorem unquoted_key_handled_under_default_options :
    defaultOptions.allowUnquotedKeys = false ∧
      HandlerKind.noQuotesKey ∈ handlerList ∧
      repairOk defaultOptions "\x7ba: 1\x7d".data
          "key must be a string at line 1 column 2"
        = some "\x7b\"a\":1\x7d".data :=
  ⟨rfl, by decide, by decide⟩

/-- Claim C7 amended: `NoQuotesKeyHandler` is always registered — the handler
registration never consults `allow_unquoted_keys`, and `repair_json` is
independent of that option. -/
theorem noquoteskey_registration_ignores_option :
    HandlerKind.noQuotesKey ∈ handlerList ∧
      ∀ (opts : ParserOptions) (b : Bool) (s : List Char) (e : String),
        repairJson { opts with allowUnquotedKeys := b } s e
          = repairJson opts s e :=
  ⟨by decide, fun _ _ _ _ => rfl⟩

/-! ## Claim C2: strict validity of repaired output -/

/-- Whether `repair_json` under default options returns `Ok` with an
output the modelled strict parser accepts. -/
def acceptedAfterRepair (s : List Char) (e : String) : Bool :=
  match repairJson defaultOptions s e with
  | .ok out => strictAccepts out
  | .error _ => false

/-- Claim C2 counterexample: on empty input (strict-parser message "EOF while
parsing a value..."), `repair_json` returns `Ok` with the empty output,
which the strict parser rejects. -/
theorem repair_ok_output_rejected_on_empty_input :
    repairOk defaultOptions [] "EOF while parsing a value at line 1 column 0"
        = some [] ∧
      strictAccepts [] = false :=
  ⟨by decide, rfl⟩

/-- Claim C2 amended: the repair loop's `Ok` output is accepted by the strict
parser on the spec's concrete defect scenarios (trailing comma, single
quotes, string truncated mid-value, array truncated after comma, object
truncated after colon), though not on every input. -/
theorem repair_scenario_outputs_accepted :
    acceptedAfterRepair "\x7b\"name\": \"test\",  \x7d".data
        "trailing comma at line 1 column 19" = true ∧
      acceptedAfterRepair "\x7b'name': 'test', \"hello\": 'cat'\x7d".data
        "key must be a string at line 1 column 2" = true ∧
      acceptedAfterRepair "\x7b\"name\": \"OpenAI is an AI research".data
        "EOF while parsing a string at line 1 column 34" = true ∧
      acceptedAfterRepair "\x7b\"items\": [1, 2, 3,".data
        "EOF while parsing a value at line 1 column 20" = true ∧
      acceptedAfterRepair "\x7b\"name\": \"test\", \"value\":".data
        "EOF while parsing a value at line 1 column 26" = true :=
  ⟨by decide, by decide, by decide, by decide, by decide⟩

/-! ## Claim C5: the context-stack invariant -/

/-- The stack invariant: non-empty, with the `Root` sentinel at the
bottom. -/
def StackInv (st : ParseState) : Prop :=
  st.stack ≠ [] ∧ st.stack.getLast? = some JsonContext.Root

theorem stackInv_congr {st st' : ParseState} (he : st'.stack = st.stack)
    (h : StackInv st) : StackInv st' := by
  unfold StackInv at *
  rw [he]
  exact h

theorem stackInv_new (l : List Char) : StackInv (ParseState.new l) :=
  ⟨by simp [ParseState.new], rfl⟩

theorem stackInv_pushContext (st : ParseState) (c : JsonContext)
    (h : StackInv st) : StackInv (st.pushContext c) := by
  obtain ⟨hne, hlast⟩ := h
  cases hs : st.stack with
  | nil => exact absurd hs hne
  | cons x xs =>
    refine ⟨by simp [ParseState.pushContext], ?_⟩
    rw [hs] at hlast
    simpa [ParseState.pushContext, hs, List.getLast?_cons_cons] using hlast

theorem stackInv_popContext (st : ParseState) (h : StackInv st) :
    StackInv st.popContext.2 := by
  obtain ⟨hne, hlast⟩ := h
  unfold ParseState.popContext
  split
  case isTrue hlen =>
    cases hs : st.stack with
    | nil => exact absurd hs hne
    | cons a tail =>
      cases tail with
      | nil => rw [hs] at hlen; simp at hlen
      | cons b l =>
        rw [hs] at hlast
        rw [List.getLast?_cons_cons] at hlast
        exact ⟨by simp [hs], by simpa [hs] using hlast⟩
  case isFalse => exact ⟨hne, hlast⟩

/-- `pop_context` on a stack of at most one element returns `None` and
leaves the state unchanged. -/
theorem popContext_singleton (st : ParseState) (h : st.stack.length ≤ 1) :
    st.popContext = (none, st) := by
  unfold ParseState.popContext
  rw [if_neg (by omega)]

theorem stack_advance (st : ParseState) (n : Nat) :
    (st.advance n).stack = st.stack := rfl

theorem stack_pushOut (st : ParseState) (c : Char) :
    (st.pushOut c).stack = st.stack := rfl

theorem stack_pushOutStr (st : ParseState) (s : List Char) :
    (st.pushOutStr s).stack = st.stack := rfl

attribute [simp] stack_advance stack_pushOut stack_pushOutStr

theorem stack_skipWsDigraph : ∀ (l : List Char) (st : ParseState),
    (skipWsDigraph l st).stack = st.stack := by
  intro l st
  induction l, st using skipWsDigraph.induct with
  | case1 rest st ih => simp_all [skipWsDigraph]
  | case2 c rest st hne hw ih => simp_all [skipWsDigraph]
  | case3 c rest st hne hw => simp_all [skipWsDigraph]
  | case4 st => simp [skipWsDigraph]

theorem stack_numLex : ∀ (l : List Char) (st : ParseState),
    (numLex l st).stack = st.stack := by
  intro l st
  induction l generalizing st with
  | nil => rw [numLex]
  | cons c rest ih =>
    rw [numLex]
    split
    · exact ih _
    · rfl

theorem stack_noQuotesLoop : ∀ (l : List Char) (st : ParseState),
    (noQuotesLoop l st).stack = st.stack := by
  intro l st
  induction l generalizing st with
  | nil => rw [noQuotesLoop]
  | cons c rest ih =>
    rw [noQuotesLoop]
    split
    · exact ih _
    · rfl

theorem stack_sqCopy : ∀ (l : List Char) (st : ParseState),
    (sqCopy l st).stack = st.stack := by
  intro l st
  induction l generalizing st with
  | nil => rw [sqCopy]
  | cons c rest ih =>
    rw [sqCopy]
    split
    · rfl
    · split
      · exact ih _
      · exact ih _

theorem stack_mqCopy : ∀ (l : List Char) (st : ParseState),
    (mqCopy l st).stack = st.stack := by
  intro l st
  induction l generalizing st with
  | nil => rw [mqCopy]
  | cons c rest ih =>
    rw [mqCopy]
    split
    · rfl
    · exact ih _

theorem stack_tsbLoop : ∀ (l : List Char) (st : ParseState),
    (tsbLoop l st).stack = st.stack := by
  intro l st
  induction l generalizing st with
  | nil => rw [tsbLoop]
  | cons c rest ih =>
    rw [tsbLoop]
    split
    · exact ih _
    · rfl

theorem stack_tseLoop : ∀ (l : List Char) (st : ParseState),
    (tseLoop l st).stack = st.stack := by
  intro l st
  induction l generalizing st with
  | nil => rw [tseLoop]
  | cons c rest ih => rw [tseLoop]; exact ih _

theorem stack_ipSkipColon : ∀ (l : List Char) (st : ParseState),
    (ipSkipColon l st).stack = st.stack := by
  intro l st
  induction l generalizing st with
  | nil => rw [ipSkipColon]
  | cons c rest ih =>
    rw [ipSkipColon]
    split
    · rfl
    · split
      · rfl
      · exact ih _

theorem stackInv_strCopyAux (b : Char) : ∀ (n : Nat) (l : List Char)
    (st : ParseState), l.length ≤ n → StackInv st → StackInv (strCopy b l st) := by
  intro n
  induction n with
  | zero =>
    intro l st hl h
    have hnil : l = [] := List.eq_nil_of_length_eq_zero (Nat.le_zero.mp hl)
    subst hnil
    rw [strCopy.eq_def]
    exact h
  | succ n ih =>
    intro l st hl h
    cases l with
    | nil => rw [strCopy.eq_def]; exact h
    | cons c rest =>
      rw [strCopy.eq_def]
      dsimp only
      by_cases h1 : c = b
      · rw [if_pos h1]
        split
        · exact stackInv_popContext _ h
        · exact h
      · rw [if_neg h1]
        by_cases h2 : c = '\\'
        · rw [if_pos h2]
          cases rest with
          | nil => exact ih [] _ (by simp) h
          | cons e rest' =>
            exact ih rest' _ (by simp only [List.length_cons] at hl ⊢; omega) h
        · rw [if_neg h2]
          exact ih rest _ (by simp only [List.length_cons] at hl; omega) h

theorem stackInv_strCopy (b : Char) (l : List Char) (st : ParseState)
    (h : StackInv st) : StackInv (strCopy b l st) :=
  stackInv_strCopyAux b l.length l st le_rfl h

theorem stackInv_literalHandle (st : ParseState) (h : StackInv st) :
    StackInv (literalHandle st).1 := by
  unfold literalHandle
  dsimp only
  split_ifs <;> first
    | exact h
    | exact stackInv_popContext _ h

theorem stackInv_colonHandle (st : ParseState) (h : StackInv st) :
    StackInv (colonHandle st).1 := by
  unfold colonHandle
  dsimp only
  apply stackInv_congr (stack_skipWsDigraph _ _)
  split_ifs <;> first
    | exact h
    | exact stackInv_pushContext _ _ (stackInv_popContext _ h)

theorem stackInv_commaHandle (st : ParseState) (h : StackInv st) :
    StackInv (commaHandle st).1 := by
  unfold commaHandle
  dsimp only
  split_ifs <;> first
    | exact h
    | exact stackInv_congr (stack_skipWsDigraph _ _) h
    | exact stackInv_popContext _ (stackInv_congr (stack_skipWsDigraph _ _) h)

theorem stackInv_stringHandle (st : ParseState) (h : StackInv st) :
    StackInv (stringHandle st).1 := by
  unfold stringHandle
  split
  · exact h
  · dsimp only
    apply stackInv_strCopy
    split_ifs <;> first
      | exact h
      | exact stackInv_pushContext _ _ h
      | exact stackInv_pushContext _ _ (stackInv_popContext _ h)

theorem stackInv_numberHandle (st : ParseState) (h : StackInv st) :
    StackInv (numberHandle st).1 := by
  unfold numberHandle
  dsimp only
  split_ifs <;> first
    | exact stackInv_congr (stack_numLex _ _) (stackInv_pushContext _ _ h)
    | exact stackInv_congr (stack_numLex _ _)
        (stackInv_pushContext _ _ (stackInv_popContext _ h))
    | exact stackInv_popContext _
        (stackInv_congr (stack_numLex _ _) (stackInv_pushContext _ _ h))
    | exact stackInv_popContext _ (stackInv_congr (stack_numLex _ _)
        (stackInv_pushContext _ _ (stackInv_popContext _ h)))

theorem stackInv_objectHandle (st : ParseState) (h : StackInv st) :
    StackInv (objectHandle st).1 := by
  unfold objectHandle
  dsimp only
  split
  · try dsimp only
    split_ifs <;> first
      | exact h
      | exact stackInv_popContext _ h
      | exact stackInv_pushContext _ _ h
      | exact stackInv_pushContext _ _ (stackInv_popContext _ h)
      | exact stackInv_popContext _ (stackInv_popContext _ h)
  · split_ifs <;> first
      | exact h
      | exact stackInv_popContext _ h

theorem stackInv_arrayHandle (st : ParseState) (h : StackInv st) :
    StackInv (arrayHandle st).1 := by
  unfold arrayHandle
  dsimp only
  split
  · try dsimp only
    split_ifs <;> first
      | exact h
      | exact stackInv_popContext _ h
      | exact stackInv_pushContext _ _ h
      | exact stackInv_pushContext _ _ (stackInv_popContext _ h)
      | exact stackInv_popContext _ (stackInv_popContext _ h)
  · split_ifs <;> first
      | exact h
      | exact stackInv_popContext _ h

theorem stackInv_noQuotesHandle (st : ParseState) (h : StackInv st) :
    StackInv (noQuotesHandle st).1 := by
  unfold noQuotesHandle
  dsimp only
  exact stackInv_congr (stack_noQuotesLoop _ _) (stackInv_pushContext _ _ h)

theorem stackInv_runHandler (k : HandlerKind) (st : ParseState)
    (h : StackInv st) : StackInv (runHandler k st).1 := by
  cases k with
  | whitespace => exact stackInv_congr (stack_skipWsDigraph _ _) h
  | literal => exact stackInv_literalHandle st h
  | colonTok => exact stackInv_colonHandle st h
  | commaTok => exact stackInv_commaHandle st h
  | stringTok => exact stackInv_stringHandle st h
  | numberTok => exact stackInv_numberHandle st h
  | objectTok => exact stackInv_objectHandle st h
  | arrayTok => exact stackInv_arrayHandle st h
  | noQuotesKey => exact stackInv_noQuotesHandle st h

theorem stackInv_runRepair (k : StrategyKind) (st : ParseState) (e : String)
    (h : StackInv st) : StackInv (runRepair k st e) := by
  cases k with
  | truncation => exact h
  | codeBlock =>
    show StackInv (codeBlockRepair st)
    unfold codeBlockRepair
    split_ifs <;> exact h
  | singleQuotes =>
    show StackInv (singleQuotesRepair st)
    unfold singleQuotesRepair
    dsimp only
    split_ifs <;> first
      | exact stackInv_congr (stack_sqCopy _ _) h
      | exact stackInv_popContext _ (stackInv_congr (stack_sqCopy _ _) h)
  | incompleteProp =>
    show StackInv (incompletePropRepair st)
    unfold incompletePropRepair
    dsimp only
    split_ifs <;> first
      | exact h
      | exact stackInv_congr (stack_ipSkipColon _ _) h
  | incompleteArr =>
    show StackInv (incompleteArrRepair st)
    unfold incompleteArrRepair
    dsimp only
    split_ifs <;> exact h
  | trailingComma => exact h
  | missingQuotes =>
    show StackInv (missingQuotesRepair st)
    unfold missingQuotesRepair
    dsimp only
    exact stackInv_congr (stack_mqCopy _ _) h
  | trimStrayBegin => exact stackInv_congr (stack_tsbLoop _ _) h
  | trimStrayEnd => exact stackInv_congr (stack_tseLoop _ _) h
  | missingBrackets =>
    show StackInv (missingBracketsRepair st e)
    unfold missingBracketsRepair
    split_ifs <;> first
      | exact h
      | exact stackInv_popContext _ h

/-- The states the repair driver can visit: the initial state built from
the trimmed input, closed under applying any handler or any strategy (with
any error text).  This over-approximates `repair_json`, which applies only
handlers whose predicate holds and the first matching strategy; every
state `repair_json` actually visits is reachable here. -/
inductive ReachableState (input : List Char) : ParseState → Prop where
  | init : ReachableState input (ParseState.new (trimChars input))
  | handlerStep (k : HandlerKind) (st : ParseState) :
      ReachableState input st → ReachableState input (runHandler k st).1
  | strategyStep (k : StrategyKind) (e : String) (st : ParseState) :
      ReachableState input st → ReachableState input (runRepair k st e)

/-- Claim C5: every reachable parse state has a non-empty stack with the `Root`
sentinel at the bottom; popping preserves the sentinel, and `pop_context`
on a one-element stack returns `None` and changes nothing. -/
theorem reachable_stack_bottom_root (input : List Char) (st : ParseState)
    (h : ReachableState input st) :
    st.stack ≠ [] ∧ st.stack.getLast? = some JsonContext.Root ∧
      st.popContext.2.stack.getLast? = some JsonContext.Root ∧
      (st.stack.length ≤ 1 → st.popContext = (none, st)) := by
  have hinv : StackInv st := by
    induction h with
    | init => exact stackInv_new _
    | handlerStep k st _ ih => exact stackInv_runHandler k st ih
    | strategyStep k e st _ ih => exact stackInv_runRepair k st e ih
  exact ⟨hinv.1, hinv.2, (stackInv_popContext st hinv).2,
    popContext_singleton st⟩

/-- Witness for C5 at the initial state of the empty input. -/
theorem reachable_stack_bottom_root_witness :
    (ParseState.new (trimChars [])).stack ≠ [] ∧
      (ParseState.new (trimChars [])).stack.getLast? = some JsonContext.Root ∧
      (ParseState.new (trimChars [])).popContext.2.stack.getLast?
          = some JsonContext.Root ∧
      ((ParseState.new (trimChars [])).stack.length ≤ 1 →
        (ParseState.new (trimChars [])).popContext
          = (none, ParseState.new (trimChars []))) :=
  reachable_stack_bottom_root [] _ ReachableState.init

/-! ## Claim C6: quote emission and escaping -/

theorem output_advance (st : ParseState) (n : Nat) :
    (st.advance n).output = st.output := rfl

theorem output_pushOut (st : ParseState) (c : Char) :
    (st.pushOut c).output = st.output ++ [c] := rfl

theorem output_pushOutStr (st : ParseState) (s : List Char) :
    (st.pushOutStr s).output = st.output ++ s := rfl

theorem output_popContext (st : ParseState) :
    st.popContext.2.output = st.output := by
  unfold ParseState.popContext
  split <;> rfl

theorem input_advance (st : ParseState) (n : Nat) :
    (st.advance n).input = st.input := rfl

theorem input_pushOut (st : ParseState) (c : Char) :
    (st.pushOut c).input = st.input := rfl

theorem position_advance (st : ParseState) (n : Nat) :
    (st.advance n).position = st.position + n := rfl

theorem position_pushOut (st : ParseState) (c : Char) :
    (st.pushOut c).position = st.position := rfl

attribute [simp] output_advance output_pushOut output_pushOutStr
  output_popContext input_advance input_pushOut position_advance
  position_pushOut

/-- The double-quote-escaping transcoder: what the SingleQuotes strategy's
copy loop appends for each copied character. -/
def escDq : List Char → List Char
  | [] => []
  | c :: rest => (if c = '"' then ['\\', c] else [c]) ++ escDq rest

theorem sqCopy_output : ∀ (l : List Char) (st : ParseState),
    (sqCopy l st).output =
      st.output ++ escDq (l.takeWhile (fun c => c != '\'')) := by
  intro l
  induction l with
  | nil => intro st; simp [sqCopy, escDq]
  | cons c rest ih =>
    intro st
    rw [sqCopy]
    split_ifs with h1 h2
    · simp [List.takeWhile_cons, h1, escDq]
    · rw [ih]
      simp [List.takeWhile_cons, h1, h2, escDq]
    · rw [ih]
      simp [List.takeWhile_cons, h1, h2, escDq]

/-- The output of `SingleQuotesStrategy::repair`: a double-quote
delimiter, the transcoded (escaped) single-quoted segment, and a closing
double-quote delimiter. -/
theorem singleQuotesRepair_output (st : ParseState) :
    (singleQuotesRepair st).output =
      st.output ++ '"' ::
        (escDq (((st.advance 1).remaining).takeWhile (fun c => c != '\''))
          ++ ['"']) := by
  unfold singleQuotesRepair
  dsimp only
  split_ifs with hc <;>
    simp [sqCopy_output, ParseState.remaining, List.append_assoc]

/-- Delimiter characters of the MissingQuotes copy loop. -/
def mqDelim (c : Char) : Bool :=
  c.isWhitespace || c = ':' || c = ',' || c = rbrace || c = ']'

theorem mqCopy_output : ∀ (l : List Char) (st : ParseState),
    (mqCopy l st).output =
      st.output ++ l.takeWhile (fun c => !mqDelim c) := by
  intro l
  induction l with
  | nil => intro st; simp [mqCopy]
  | cons c rest ih =>
    intro st
    rw [mqCopy]
    split_ifs with h1
    · have hmq : mqDelim c = true := h1
      simp [List.takeWhile_cons, hmq]
    · have hmq : mqDelim c = false := by
        apply Bool.eq_false_iff.mpr
        intro hx
        exact h1 hx
      rw [ih]
      simp [List.takeWhile_cons, hmq]

theorem currentContext_mqCopy (l : List Char) (st : ParseState) :
    (mqCopy l st).currentContext = st.currentContext := by
  unfold ParseState.currentContext
  rw [stack_mqCopy]

/-- The output of `MissingQuotesStrategy::repair` outside the
`SingleQuoteProperty` context: double-quote delimiters around the verbatim
copied run. -/
theorem missingQuotesRepair_output (st : ParseState)
    (h : st.currentContext ≠ JsonContext.SingleQuoteProperty) :
    (missingQuotesRepair st).output =
      st.output ++ '"' ::
        (st.remaining.takeWhile (fun c => !mqDelim c) ++ ['"']) := by
  unfold missingQuotesRepair
  dsimp only
  rw [if_neg h]
  have h2 : (mqCopy (st.pushOut '"').remaining (st.pushOut '"')).currentContext
      = st.currentContext := by
    rw [currentContext_mqCopy]
    unfold ParseState.currentContext
    rw [stack_pushOut]
  rw [h2, if_neg h]
  simp only [output_pushOut]
  rw [mqCopy_output]
  simp [ParseState.remaining, List.append_assoc]

theorem escDq_quote_escaped : ∀ (cs : List Char) (i : Nat),
    (escDq cs)[i]? = some '"' → 0 < i ∧ (escDq cs)[i - 1]? = some '\\' := by
  intro cs
  induction cs with
  | nil => intro i h; simp [escDq] at h
  | cons c rest ih =>
    intro i h
    by_cases hc : c = '"'
    · subst hc
      match i with
      | 0 => simp [escDq] at h
      | 1 => exact ⟨by omega, by simp [escDq]⟩
      | (j + 2) =>
        have h' : (escDq rest)[j]? = some '"' := by simpa [escDq] using h
        obtain ⟨hj, hesc⟩ := ih j h'
        refine ⟨by omega, ?_⟩
        obtain ⟨j', rfl⟩ : ∃ j', j = j' + 1 := ⟨j - 1, by omega⟩
        simpa [escDq] using hesc
    · match i with
      | 0 =>
        rw [show escDq (c :: rest) = c :: escDq rest by simp [escDq, hc]] at h
        simp at h
        exact absurd h hc
      | (j + 1) =>
        have h' : (escDq rest)[j]? = some '"' := by simpa [escDq, hc] using h
        obtain ⟨hj, hesc⟩ := ih j h'
        refine ⟨by omega, ?_⟩
        obtain ⟨j', rfl⟩ : ∃ j', j = j' + 1 := ⟨j - 1, by omega⟩
        simpa [escDq, hc] using hesc

/-- Claim C6 counterexample: the StringHandler (which runs before the
SingleQuotes strategy) copies a double quote inside a single-quoted
segment verbatim: the repaired output of the single-quoted input
containing an embedded double quote carries that quote at index 7 with the
character `x` (not a backslash) right before it. -/
theorem single_quoted_dq_copied_unescaped :
    repairOk defaultOptions "\x7b'a': 'x\"y'\x7d".data
        "key must be a string at line 1 column 2"
      = some "\x7b\"a\":\"x\"y\"\x7d".data ∧
      "\x7b\"a\":\"x\"y\"\x7d".data[7]? = some '"' ∧
      "\x7b\"a\":\"x\"y\"\x7d".data[6]? = some 'x' :=
  ⟨by decide, by decide, by decide⟩

/-- Claim C6 amended: the SingleQuotes strategy emits only double-quote
delimiters and escapes every embedded double quote of the single-quoted
segment; the MissingQuotes strategy emits double-quote delimiters whenever
the context is not `SingleQuoteProperty`.  (The StringHandler, by
contrast, copies single-quoted segments without escaping, and
MissingQuotes emits single quotes in the `SingleQuoteProperty`
context — the counterexample above.) -/
theorem quote_emission_characterized :
    (∀ st : ParseState, (singleQuotesRepair st).output =
        st.output ++ '"' ::
          (escDq (((st.advance 1).remaining).takeWhile (fun c => c != '\''))
            ++ ['"'])) ∧
      (∀ (cs : List Char) (i : Nat), (escDq cs)[i]? = some '"' →
        0 < i ∧ (escDq cs)[i - 1]? = some '\\') ∧
      (∀ st : ParseState,
        st.currentContext ≠ JsonContext.SingleQuoteProperty →
        (missingQuotesRepair st).output =
          st.output ++ '"' ::
            (st.remaining.takeWhile (fun c => !mqDelim c) ++ ['"'])) :=
  ⟨singleQuotesRepair_output, escDq_quote_escaped, missingQuotesRepair_output⟩

/-- Witness for the amended C6 at concrete states and a concrete escaped
list. -/
theorem quote_emission_characterized_witness :
    ((singleQuotesRepair (ParseState.new "'a'".data)).output =
        (ParseState.new "'a'".data).output ++ '"' ::
          (escDq ((((ParseState.new "'a'".data).advance 1).remaining).takeWhile
              (fun c => c != '\'')) ++ ['"'])) ∧
      (0 < 1 ∧ (escDq ['"'])[1 - 1]? = some '\\') ∧
      ((missingQuotesRepair (ParseState.new "x:".data)).output =
        (ParseState.new "x:".data).output ++ '"' ::
          ((ParseState.new "x:".data).remaining.takeWhile
              (fun c => !mqDelim c) ++ ['"'])) :=
  ⟨quote_emission_characterized.1 (ParseState.new "'a'".data),
    quote_emission_characterized.2.1 ['"'] 1 (by decide),
    quote_emission_characterized.2.2 (ParseState.new "x:".data) (by decide)⟩

/-! ## Claim C8: the aggressive truncation pre-pass -/

theorem scanGo_out : ∀ (l : List Char) (a : ScanAcc),
    (scanGo l a).out = a.out ++ l := by
  intro l
  induction l with
  | nil => intro a; simp [scanGo]
  | cons c rest ih =>
    intro a
    rw [scanGo]
    split_ifs <;> simp [ih]

/-- Claim C8 counterexample: on input `[1,` the aggressive pre-pass strips the
trailing comma from the copied interior before appending `]`, so the
trimmed input is not a prefix of the output. -/
theorem aggressive_pass_comma_strip_not_append_only :
    aggressivelyCloseScopes defaultOptions "[1,".data = "[1]".data ∧
      ¬("[1,".data <+: "[1]".data) :=
  ⟨by decide, by decide⟩

/-- Claim C8 amended: the scan phase of `aggressively_close_scopes` copies the
trimmed input verbatim, and whenever the copied text (extended by the
closing quote of an unclosed string, if any) does not end with a comma
after right-trimming, the trimmed input is a prefix of the output (the
pass then only appends); the counterexample above shows the
trailing-comma strip is the one exception. -/
theorem aggressive_pass_copy_and_append (opts : ParserOptions)
    (s : List Char) (hagg : opts.aggressiveTruncationRepair = true)
    (hnc : (trimEndChars ((scanGo (trimChars s) initScanAcc).out ++
        (if (scanGo (trimChars s) initScanAcc).inString then
          [(scanGo (trimChars s) initScanAcc).quoteChar]
        else []))).getLast? ≠ some ',') :
    (scanGo (trimChars s) initScanAcc).out = trimChars s ∧
      trimChars s <+: aggressivelyCloseScopes opts s := by
  have hout : (scanGo (trimChars s) initScanAcc).out = trimChars s := by
    rw [scanGo_out]
    simp [initScanAcc]
  refine ⟨hout, ?_⟩
  unfold aggressivelyCloseScopes
  rw [hagg]
  dsimp only
  rw [if_neg hnc, hout, List.append_assoc]
  exact List.prefix_append _ _

/-- Witness for the amended C8 on a truncated array input with no
trailing comma. -/
theorem aggressive_pass_copy_and_append_witness :
    defaultOptions.aggressiveTruncationRepair = true ∧
      ((scanGo (trimChars "[1".data) initScanAcc).out = trimChars "[1".data ∧
        trimChars "[1".data <+:
          aggressivelyCloseScopes defaultOptions "[1".data) :=
  ⟨rfl, aggressive_pass_copy_and_append defaultOptions "[1".data rfl (by decide)⟩

end ChillJson
